import Mathlib

/-!
Verification of the calendar-group subsystem of `mcp-ical`
(`src/mcp_ical/groups/`): the pydantic entity model (`group_models.py`),
the CRUD manager (`group_manager.py`), the JSON storage layer
(`storage.py`) and the calendar-integration bridge
(`calendar_integration.py`) are shallowly embedded below, and the
spec-level properties are proved or refuted against that embedding.

Modelling conventions:
* Python `datetime` values are modelled as natural numbers; every
  operation that calls `datetime.now()` takes the current time as an
  explicit `now : Nat` argument.  `isoformat`/`fromisoformat` on naive
  datetimes is an exact bijection, so serialised timestamps are kept as
  the same `Nat`.
* Python `dict`s (which preserve insertion order) are modelled as
  association lists; key assignment replaces in place or appends.
* Python exceptions become an explicit `Except` error type; each
  embedded operation returns its result, the schema state after the
  call and a flag recording whether the state was persisted to storage.
* Python `sorted` is a stable sort; it is embedded as
  `List.insertionSort` with the same key, which is stable and therefore
  extensionally identical to any stable sort.
-/

namespace MCPIcal

/-- Python exceptions raised by the groups subsystem.  The manager
raises `ValueError` for all of not-found / already-exists / validation
failures, distinguished by message; the constructors keep that
distinction. -/
inductive Err where
  | validation (msg : String)
  | notFound (ident : String)
  | alreadyExists (ident : String)
  | typeError
deriving DecidableEq, Repr

/-- Python `str.strip()` on the underlying character list: drop leading
and trailing whitespace. -/
def pyStripList (l : List Char) : List Char :=
  ((l.dropWhile Char.isWhitespace).reverse.dropWhile Char.isWhitespace).reverse

/-- Python `str.strip()`. -/
def pyStrip (s : String) : String := ⟨pyStripList s.data⟩

/-- Python `char in str` for a single character. -/
def strHasChar (s : String) (c : Char) : Bool := s.data.contains c

/-- The forbidden group-name characters of
`CalendarGroup.validate_name`. -/
def invalidChars : List Char := ['/', '\\', ':', '*', '?', '"', '<', '>', '|']

/-- `CalendarGroup` (`group_models.py`): a validated calendar group.
Timestamps are `Nat` (see the file comment). -/
structure CalendarGroup where
  name : String
  calendar_ids : List String
  description : String
  created : Nat
  modified : Nat
deriving DecidableEq, Repr

/-- `CalendarGroup.validate_name`: reject empty / whitespace-only
names, strip surrounding whitespace, reject forbidden characters.  The
pydantic `Field(min_length=1, max_length=100)` constraints run on the
raw value before the validator. -/
def validate_name (v : String) : Except Err String :=
  if v.data.length < 1 ∨ v.data.length > 100 then
    .error (.validation "name length out of range")
  else if pyStrip v = "" then
    .error (.validation "Group name cannot be empty")
  else if invalidChars.any (fun c => strHasChar (pyStrip v) c) then
    .error (.validation "Group name cannot contain invalid characters")
  else
    .ok (pyStrip v)

/-- The duplicate-removal loop of `CalendarGroup.validate_calendar_ids`:
keep the first occurrence of each id, preserving order (`seen` is the
set of ids already kept). -/
def pyDedupAux (seen : List String) : List String → List String
  | [] => []
  | x :: xs => if x ∈ seen then pyDedupAux seen xs else x :: pyDedupAux (x :: seen) xs

/-- Order-preserving duplicate removal, as in
`CalendarGroup.validate_calendar_ids`. -/
def pyDedup (l : List String) : List String := pyDedupAux [] l

/-- `CalendarGroup.validate_calendar_ids`: deduplicate preserving
order, then require every id to be a non-empty string after stripping. -/
def validate_calendar_ids (v : List String) : Except Err (List String) :=
  if (pyDedup v).all (fun cal_id => pyStrip cal_id ≠ "") then
    .ok (pyDedup v)
  else
    .error (.validation "All calendar IDs must be non-empty strings")

/-- `CalendarGroup.validate_description`: strip; the
`Field(max_length=500)` constraint runs on the raw value. -/
def validate_description (v : String) : Except Err String :=
  if v.data.length > 500 then
    .error (.validation "description too long")
  else
    .ok (pyStrip v)

/-- Construction of a `CalendarGroup` through the pydantic pipeline:
`set_timestamps` (a `mode='before'` validator) fills `created` and
`modified` with `now` only when they are not supplied, then the field
validators run in field order. -/
def mkCalendarGroup (now : Nat) (name : String) (calendar_ids : List String)
    (description : String) (created? modified? : Option Nat) :
    Except Err CalendarGroup := do
  let created := created?.getD now
  let modified := modified?.getD now
  let n ← validate_name name
  let ids ← validate_calendar_ids calendar_ids
  let d ← validate_description description
  return ⟨n, ids, d, created, modified⟩

/-- The serialised form produced by `CalendarGroup.to_dict`.  The ISO
round trip on naive datetimes is exact, so timestamps stay `Nat`. -/
structure GroupDict where
  name : String
  calendar_ids : List String
  description : String
  created : Nat
  modified : Nat
deriving DecidableEq, Repr

/-- `CalendarGroup.to_dict`. -/
def to_dict (g : CalendarGroup) : GroupDict :=
  ⟨g.name, g.calendar_ids, g.description, g.created, g.modified⟩

/-- `CalendarGroup.from_dict`: parse the timestamps and re-run the full
pydantic construction on the stored fields. -/
def from_dict (now : Nat) (d : GroupDict) : Except Err CalendarGroup :=
  mkCalendarGroup now d.name d.calendar_ids d.description (some d.created) (some d.modified)

/-- `CalendarGroup.add_calendar`: append if absent and bump `modified`;
returns whether a change happened together with the updated group. -/
def groupAddCalendar (now : Nat) (g : CalendarGroup) (calendar_id : String) :
    Bool × CalendarGroup :=
  if calendar_id ∉ g.calendar_ids then
    (true, { g with calendar_ids := g.calendar_ids ++ [calendar_id], modified := now })
  else
    (false, g)

/-- `CalendarGroup.remove_calendar`: Python `list.remove` deletes the
first occurrence; bump `modified` on change. -/
def groupRemoveCalendar (now : Nat) (g : CalendarGroup) (calendar_id : String) :
    Bool × CalendarGroup :=
  if calendar_id ∈ g.calendar_ids then
    (true, { g with calendar_ids := g.calendar_ids.erase calendar_id, modified := now })
  else
    (false, g)

/-- `GroupsSchema` (`group_models.py`): the persisted store.  `groups`
models the Python dict as an insertion-ordered association list. -/
structure GroupsSchema where
  version : String
  groups : List (String × CalendarGroup)
deriving DecidableEq, Repr

/-- Python `key in dict`. -/
def hasKey (gs : List (String × CalendarGroup)) (k : String) : Bool :=
  gs.any (fun p => p.1 == k)

/-- Python `dict.get(key)` / `dict[key]`. -/
def lookupGroup (s : GroupsSchema) (k : String) : Option CalendarGroup :=
  (s.groups.find? (fun p => p.1 == k)).map (·.2)

/-- Python `dict[key] = value`: replace in place if the key exists,
otherwise append. -/
def setKey (gs : List (String × CalendarGroup)) (k : String) (v : CalendarGroup) :
    List (String × CalendarGroup) :=
  match gs with
  | [] => [(k, v)]
  | (k', v') :: rest => if k' = k then (k, v) :: rest else (k', v') :: setKey rest k v

/-- Python `del dict[key]`: remove the (unique) entry with this key. -/
def delKey (gs : List (String × CalendarGroup)) (k : String) :
    List (String × CalendarGroup) :=
  match gs with
  | [] => []
  | (k', v') :: rest => if k' = k then rest else (k', v') :: delKey rest k

/-- `GroupsSchema.add_group`: refuse (returning `false`) when the name
is already a key, otherwise insert under `group.name`. -/
def add_group (s : GroupsSchema) (g : CalendarGroup) : Bool × GroupsSchema :=
  if hasKey s.groups g.name then
    (false, s)
  else
    (true, { s with groups := s.groups ++ [(g.name, g)] })

/-- `GroupsSchema.remove_group`. -/
def remove_group (s : GroupsSchema) (name : String) : Bool × GroupsSchema :=
  if hasKey s.groups name then
    (true, { s with groups := delKey s.groups name })
  else
    (false, s)

/-- Result triple of a manager operation: the returned value (or the
raised exception), the schema state after the call, and whether the
state was persisted via `_save_schema`. -/
def MgrResult (α : Type) : Type := Except Err α × GroupsSchema × Bool

/-- `CalendarGroupManager.create_group`: duplicate check on the raw
`name`, pydantic construction (validation failures propagate), then
`schema.add_group` — whose boolean result the code ignores — and an
unconditional save. -/
def create_group (now : Nat) (name : String) (calendar_ids : List String)
    (description : String) (s : GroupsSchema) : MgrResult CalendarGroup :=
  if hasKey s.groups name then
    (.error (.alreadyExists name), s, false)
  else
    match mkCalendarGroup now name calendar_ids description none none with
    | .error e => (.error e, s, false)
    | .ok group =>
      let (_, s') := add_group s group
      (.ok group, s', true)

/-- The `updates` dictionary accepted by
`CalendarGroupManager.update_group`. -/
structure GroupUpdates where
  calendar_ids : Option (List String) := none
  description : Option String := none
deriving DecidableEq, Repr

/-- `CalendarGroupManager.update_group`: assignments to the pydantic
model fields do not re-run validators (no `validate_assignment`), so a
supplied `calendar_ids` list is stored verbatim; `description` goes
through `update_description` (strip + bump); `modified` is always
bumped; the schema is saved. -/
def update_group (now : Nat) (name : String) (u : GroupUpdates) (s : GroupsSchema) :
    MgrResult CalendarGroup :=
  match lookupGroup s name with
  | none => (.error (.notFound name), s, false)
  | some group =>
    let group := match u.calendar_ids with
      | some l => { group with calendar_ids := l }
      | none => group
    let group := match u.description with
      | some d => { group with description := pyStrip d, modified := now }
      | none => group
    let group := { group with modified := now }
    (.ok group, { s with groups := setKey s.groups name group }, true)

/-- `CalendarGroupManager.delete_group`: returns whether a group was
removed; saves only when it was. -/
def delete_group (name : String) (s : GroupsSchema) : Bool × GroupsSchema × Bool :=
  match remove_group s name with
  | (true, s') => (true, s', true)
  | (false, _) => (false, s, false)

/-- `CalendarGroupManager.add_calendar_to_group`: `NotFound` if the
group is absent; otherwise delegate to `CalendarGroup.add_calendar`
(the mutation acts on the cached schema's group object) and save only
on an actual change. -/
def add_calendar_to_group (now : Nat) (group_name calendar_id : String)
    (s : GroupsSchema) : MgrResult Bool :=
  match lookupGroup s group_name with
  | none => (.error (.notFound group_name), s, false)
  | some group =>
    let (result, group') := groupAddCalendar now group calendar_id
    let s' := { s with groups := setKey s.groups group_name group' }
    (.ok result, s', result)

/-- `CalendarGroupManager.remove_calendar_from_group`: symmetric to
`add_calendar_to_group`. -/
def remove_calendar_from_group (now : Nat) (group_name calendar_id : String)
    (s : GroupsSchema) : MgrResult Bool :=
  match lookupGroup s group_name with
  | none => (.error (.notFound group_name), s, false)
  | some group =>
    let (result, group') := groupRemoveCalendar now group calendar_id
    let s' := { s with groups := setKey s.groups group_name group' }
    (.ok result, s', result)

/-- Python string comparison (code-point lexicographic `<=`). -/
def lexLe : List Char → List Char → Bool
  | [], _ => true
  | _ :: _, [] => false
  | a :: as, b :: bs =>
    if a.toNat < b.toNat then true
    else if b.toNat < a.toNat then false
    else lexLe as bs

/-- The sort key of `CalendarGroupManager.list_groups`:
`g.name.lower()`. -/
def lowerKey (g : CalendarGroup) : List Char := g.name.data.map Char.toLower

/-- `CalendarGroupManager.list_groups`: the schema's groups in
insertion order, stably sorted by case-insensitive name (Python
`sorted` is stable; `insertionSort` with the same key is the identical
stable sort). -/
def list_groups (s : GroupsSchema) : List CalendarGroup :=
  List.insertionSort (fun a b => lexLe (lowerKey a) (lowerKey b)) (s.groups.map (·.2))

/-- `CalendarGroupManager.rename_group`: check `old` exists and `new`
does not, then assign `group.name = new` (again: no validation on
assignment), bump `modified`, add the entry under `new` (appended — the
key is fresh) and delete the `old` key; save. -/
def rename_group (now : Nat) (old_name new_name : String) (s : GroupsSchema) :
    MgrResult CalendarGroup :=
  match lookupGroup s old_name with
  | none => (.error (.notFound old_name), s, false)
  | some group =>
    if hasKey s.groups new_name then
      (.error (.alreadyExists new_name), s, false)
    else
      let group := { group with name := new_name, modified := now }
      let groups' := delKey (setKey s.groups new_name group) old_name
      (.ok group, { s with groups := groups' }, true)

/-- Python `max(iterable, key=f)`: the first element attaining the
maximal key (later elements replace only on a strictly greater key). -/
def pyMaxBy {α : Type} (f : α → Nat) (x : α) (l : List α) : α :=
  l.foldl (fun best y => if f y > f best then y else best) x

/-- Python `min(iterable, key=f)`: the first element attaining the
minimal key. -/
def pyMinBy {α : Type} (f : α → Nat) (x : α) (l : List α) : α :=
  l.foldl (fun best y => if f y < f best then y else best) x

/-- Number of ids in a group, the sort key of the stats extrema. -/
def calCount (g : CalendarGroup) : Nat := g.calendar_ids.length

/-- Result of `CalendarGroupManager.get_group_stats`.  The Python float
mean is modelled as the exact rational. -/
structure GroupStats where
  total_groups : Nat
  total_calendars : Nat
  average_calendars_per_group : ℚ
  largest_group : Option (String × Nat)
  smallest_group : Option (String × Nat)
deriving DecidableEq, Repr

/-- `CalendarGroupManager.get_group_stats`: zeroed summary for an empty
list; otherwise totals, the exact mean, and `max`/`min` by calendar
count over the sorted group list.  The `set` of all ids is modelled by
first-occurrence deduplication (only its size is used). -/
def get_group_stats (s : GroupsSchema) : GroupStats :=
  match list_groups s with
  | [] => ⟨0, 0, 0, none, none⟩
  | g :: gs =>
    let calendar_counts := (g :: gs).map calCount
    let largest_group := pyMaxBy calCount g gs
    let smallest_group := pyMinBy calCount g gs
    let all_calendars := pyDedup ((g :: gs).flatMap (·.calendar_ids))
    { total_groups := (g :: gs).length
      total_calendars := all_calendars.length
      average_calendars_per_group := (calendar_counts.sum : ℚ) / (calendar_counts.length : ℚ)
      largest_group := some (largest_group.name, calCount largest_group)
      smallest_group := some (smallest_group.name, calCount smallest_group) }

/-!  The calendar-integration bridge (`calendar_integration.py`).  The
external `CalendarManager` collaborator is modelled as an environment
of resolution functions. -/

/-- The slice of the external `CalendarManager` the bridge consumes:
`_find_calendar_by_name` / `_find_calendar_by_id` (as the id/name they
yield) and the ids of `list_calendars()`. -/
structure CalEnv where
  resolveName : String → Option String
  resolveId : String → Option String
  availableIds : List String

/-- `GroupCalendarBridge.validate_group_calendars`: for every id in the
group, whether it is among the currently available calendar ids;
`NotFound` if the group is absent. -/
def validate_group_calendars (env : CalEnv) (group_name : String) (s : GroupsSchema) :
    Except Err (List (String × Bool)) :=
  match lookupGroup s group_name with
  | none => .error (.notFound group_name)
  | some group =>
    .ok (group.calendar_ids.map (fun cal_id => (cal_id, cal_id ∈ env.availableIds)))

/-- The removal loop of `cleanup_invalid_calendars`: remove each
invalid id through the manager, counting the calls that return true and
threading the schema. -/
def cleanupLoop (now : Nat) (group_name : String) :
    List String → Nat → GroupsSchema → Except Err (Nat × GroupsSchema)
  | [], n, s => .ok (n, s)
  | cal_id :: rest, n, s =>
    match remove_calendar_from_group now group_name cal_id s with
    | (.ok b, s', _) => cleanupLoop now group_name rest (if b then n + 1 else n) s'
    | (.error e, _, _) => .error e

/-- The report returned by `cleanup_invalid_calendars`.
`remaining_calendars` is an `Int`: Python computes
`len(group.calendar_ids) - removed_count`, which can go negative. -/
structure CleanupReport where
  group_name : String
  removed_count : Nat
  invalid_calendars : List String
  remaining_calendars : Int
deriving DecidableEq, Repr

/-- `GroupCalendarBridge.cleanup_invalid_calendars`.  The local
`group` variable aliases the group object inside the manager's cached
schema, which the removal loop mutates in place — so the final
`len(group.calendar_ids)` reads the post-removal id list; the
embedding reads it from the schema after the loop. -/
def cleanup_invalid_calendars (env : CalEnv) (now : Nat) (group_name : String)
    (s : GroupsSchema) : Except Err CleanupReport × GroupsSchema :=
  match lookupGroup s group_name with
  | none => (.error (.notFound group_name), s)
  | some _ =>
    match validate_group_calendars env group_name s with
    | .error e => (.error e, s)
    | .ok validation_results =>
      let invalid_calendar_ids := (validation_results.filter (fun p => ¬ p.2)).map (·.1)
      match cleanupLoop now group_name invalid_calendar_ids 0 s with
      | .error e => (.error e, s)
      | .ok (removed_count, s') =>
        let liveLen : Nat := match lookupGroup s' group_name with
          | some g => g.calendar_ids.length
          | none => 0
        (.ok { group_name := group_name
               removed_count := removed_count
               invalid_calendars := invalid_calendar_ids
               remaining_calendars := (liveLen : Int) - (removed_count : Int) }, s')

/-- The fallback search of
`GroupCalendarBridge.remove_calendar_from_group_by_name`: walk the
sorted group list; inside a group whose name matches, return the first
id that no longer resolves to a calendar; if a matching group has none,
keep walking. -/
def removeByNameLoop (env : CalEnv) (group_name : String) :
    List CalendarGroup → Option String
  | [] => none
  | group :: rest =>
    if group.name = group_name then
      match group.calendar_ids.find? (fun cal_id => (env.resolveId cal_id).isNone) with
      | some cal_id => some cal_id
      | none => removeByNameLoop env group_name rest
    else removeByNameLoop env group_name rest

/-- `GroupCalendarBridge.remove_calendar_from_group_by_name`: resolve
the calendar name; when it resolves, delegate to the manager; when it
does not, fall back to removing the first dangling id of the named
group, and raise `NotFound` for the calendar only when that search
yields nothing. -/
def remove_calendar_from_group_by_name (env : CalEnv) (now : Nat)
    (group_name calendar_name : String) (s : GroupsSchema) : MgrResult Bool :=
  match env.resolveName calendar_name with
  | some calendar_id => remove_calendar_from_group now group_name calendar_id s
  | none =>
    match removeByNameLoop env group_name (list_groups s) with
    | some cal_id => remove_calendar_from_group now group_name cal_id s
    | none => (.error (.notFound calendar_name), s, false)

/-!  The storage layer (`storage.py`).  File contents are JSON values;
`load_groups` / `migrate_schema` / `_restore_from_backup` are embedded
over them. -/

/-- A parsed JSON value. -/
inductive JVal where
  | null
  | bool (b : Bool)
  | num (n : Int)
  | str (s : String)
  | arr (elts : List JVal)
  | obj (entries : List (String × JVal))

/-- Python substring test `needle in hay` (for the non-empty needles
used by `migrate_schema`). -/
def strContains (hay needle : String) : Bool :=
  (hay.splitOn needle).length > 1

/-- Python `key in data` on a JSON value: key membership for objects,
element equality for arrays, substring test for strings; `TypeError`
for the remaining types. -/
def jsonMember (k : String) : JVal → Except Err Bool
  | .obj entries => .ok (entries.any (fun p => p.1 == k))
  | .arr elts => .ok (elts.any (fun e => match e with | .str s => s == k | _ => false))
  | .str s => .ok (strContains s k)
  | _ => .error .typeError

/-- Python `dict`-style key assignment on a JSON value (`TypeError` on
anything but an object). -/
def jsonSetKey (k : String) (v : JVal) : List (String × JVal) → List (String × JVal)
  | [] => [(k, v)]
  | (k', v') :: rest => if k' = k then (k, v) :: rest else (k', v') :: jsonSetKey k v rest

/-- Python item assignment `data[k] = v` on a JSON value. -/
def jsonSetItem (k : String) (v : JVal) : JVal → Except Err JVal
  | .obj entries => .ok (.obj (jsonSetKey k v entries))
  | _ => .error .typeError

/-- The canonical empty schema `{"version": "1.0", "groups": {}}`. -/
def emptySchemaJson : JVal := .obj [("version", .str "1.0"), ("groups", .obj [])]

/-- `GroupStorage.migrate_schema`: stamp `version` when `groups` is
present without it; wrap a versionless, groupless value as the groups
map.  The membership tests and the item assignment can raise
`TypeError` on non-dict data, which the source does not catch. -/
def migrate_schema (data : JVal) : Except Err JVal := do
  let hasVersion ← jsonMember "version" data
  if ¬ hasVersion then
    let hasGroups ← jsonMember "groups" data
    if hasGroups then
      jsonSetItem "version" (.str "1.0") data
    else
      return .obj [("version", .str "1.0"), ("groups", data)]
  else
    return data

/-- The storage state `load_groups` reads: the primary file (`none`:
absent; `some none`: open/parse fails with `IOError`/`JSONDecodeError`;
`some (some j)`: parses to `j`) and the backup directory's files as
(mtime, parse outcome) pairs in directory order. -/
structure StorageState where
  primary : Option (Option JVal)
  backups : List (Nat × Option JVal)

/-- The backup scan loop of `GroupStorage._restore_from_backup`: skip
files that fail to parse; return the migrated content of the first file
that parses (an exception from `migrate_schema` propagates). -/
def restoreLoop : List (Nat × Option JVal) → Except Err (Option JVal)
  | [] => .ok none
  | (_, none) :: rest => restoreLoop rest
  | (_, some j) :: _ =>
    match migrate_schema j with
    | .ok d => .ok (some d)
    | .error e => .error e

/-- `GroupStorage._restore_from_backup`: order the backup files by
modification time descending (Python `sorted(..., reverse=True)` is
stable) and scan them. -/
def restore_from_backup (st : StorageState) : Except Err (Option JVal) :=
  restoreLoop (List.insertionSort (fun a b => b.1 ≤ a.1) st.backups)

/-- `GroupStorage.load_groups`: canonical empty schema when the file is
absent; parse-then-migrate when it parses (`migrate_schema` failures
are not caught); on `JSONDecodeError`/`IOError`, recover from backup,
falling back to the canonical empty schema. -/
def load_groups (st : StorageState) : Except Err JVal :=
  match st.primary with
  | none => .ok emptySchemaJson
  | some (some data) => migrate_schema data
  | some none =>
    match restore_from_backup st with
    | .ok (some backup_data) => .ok backup_data
    | .ok none => .ok emptySchemaJson
    | .error e => .error e

/-!  The operation machine for the schema-invariant claim: a sequence
of manager write operations acting on a schema, each with the time at
which it runs. -/

/-- One manager write operation. -/
inductive Op where
  | create (name : String) (ids : List String) (desc : String)
  | update (name : String) (u : GroupUpdates)
  | rename (old_name new_name : String)
  | delete (name : String)
  | addCal (group_name calendar_id : String)
  | removeCal (group_name calendar_id : String)

/-- The schema state after running one manager operation (raised
exceptions leave the state as the operation left it, which for every
operation here is the pre-state, since all checks precede mutation). -/
def stepOp (now : Nat) (op : Op) (s : GroupsSchema) : GroupsSchema :=
  match op with
  | .create n ids d => (create_group now n ids d s).2.1
  | .update n u => (update_group now n u s).2.1
  | .rename o n => (rename_group now o n s).2.1
  | .delete n => (delete_group n s).2.1
  | .addCal g c => (add_calendar_to_group now g c s).2.1
  | .removeCal g c => (remove_calendar_from_group now g c s).2.1

/-- Run a sequence of timed manager operations. -/
def runOps : List (Nat × Op) → GroupsSchema → GroupsSchema
  | [], s => s
  | (now, op) :: rest, s => runOps rest (stepOp now op s)

/-- The spec's name invariant: non-empty after trimming and free of the
forbidden characters. -/
def goodName (n : String) : Prop :=
  pyStrip n ≠ "" ∧ ∀ c ∈ invalidChars, ¬ strHasChar n c

instance (n : String) : Decidable (goodName n) := by
  unfold goodName; infer_instance

/-- The spec's per-group invariant: duplicate-free ids and a good
name. -/
def GroupInv (g : CalendarGroup) : Prop :=
  g.calendar_ids.Nodup ∧ goodName g.name

instance (g : CalendarGroup) : Decidable (GroupInv g) := by
  unfold GroupInv; infer_instance

/-- Every group reachable in the schema satisfies the invariant. -/
def SchemaInv (s : GroupsSchema) : Prop :=
  ∀ p ∈ s.groups, GroupInv p.2

instance (s : GroupsSchema) : Decidable (SchemaInv s) :=
  List.decidableBAll _ s.groups

/-- Side condition on an operation under which it preserves the
invariants: `update` must supply a duplicate-free id list (the code
stores it verbatim) and `rename` must supply an invariant-satisfying
name (the code assigns it verbatim). -/
def OpOK : Op → Prop
  | .update _ u => ∀ l, u.calendar_ids = some l → l.Nodup
  | .rename _ new_name => goodName new_name
  | _ => True

instance (op : Op) : Decidable (OpOK op) := by
  cases op <;> (unfold OpOK; infer_instance)

/-- The dict-representation invariant of `GroupsSchema.groups`: keys
are unique (it is a `dict`) and each key equals its group's name
(enforced by `GroupsSchema.validate_groups`). -/
def SchemaWF (s : GroupsSchema) : Prop :=
  (s.groups.map (·.1)).Nodup ∧ ∀ p ∈ s.groups, p.1 = p.2.name

instance (s : GroupsSchema) : Decidable (SchemaWF s) := by
  unfold SchemaWF; infer_instance

/-- A group is valid when it is a fixed point of the pydantic
construction pipeline on its own fields (with its own timestamps
supplied, so the construction time is irrelevant). -/
def validGroup (g : CalendarGroup) : Prop :=
  mkCalendarGroup 0 g.name g.calendar_ids g.description (some g.created) (some g.modified)
    = .ok g

/-!  Helper lemmas about stripping. -/

theorem head?_dropWhile_false {p : Char → Bool} {l : List Char} {c : Char}
    (h : (l.dropWhile p).head? = some c) : p c = false := by
  have hm := List.head?_dropWhile_not p l
  rw [h] at hm
  exact hm

theorem dropWhile_eq_self_of_head {p : Char → Bool} :
    ∀ {l : List Char}, (∀ c, l.head? = some c → p c = false) → l.dropWhile p = l
  | [], _ => rfl
  | c :: t, h => by
    have hc : p c = false := h c rfl
    simp [List.dropWhile_cons, hc]

theorem stripList_head {l : List Char} {c : Char}
    (h : (pyStripList l).head? = some c) : c.isWhitespace = false := by
  unfold pyStripList at h
  set m := l.dropWhile Char.isWhitespace with hm
  set d := m.reverse.dropWhile Char.isWhitespace with hd
  rw [List.head?_reverse] at h
  have hsuff : d <:+ m.reverse := List.dropWhile_suffix _
  obtain ⟨t, ht⟩ := hsuff
  have hdne : d ≠ [] := by
    intro h0
    rw [h0] at h
    simp at h
  have h2 : (m.reverse).getLast? = some c := by
    rw [← ht, List.getLast?_append, h]
    rfl
  rw [List.getLast?_reverse] at h2
  exact head?_dropWhile_false h2

theorem stripList_getLast {l : List Char} {c : Char}
    (h : (pyStripList l).getLast? = some c) : c.isWhitespace = false := by
  unfold pyStripList at h
  rw [List.getLast?_reverse] at h
  exact head?_dropWhile_false h

theorem pyStripList_idem (l : List Char) : pyStripList (pyStripList l) = pyStripList l := by
  set r := pyStripList l with hr
  have h1 : r.dropWhile Char.isWhitespace = r :=
    dropWhile_eq_self_of_head (fun c hc => stripList_head (hr ▸ hc))
  have h2 : r.reverse.dropWhile Char.isWhitespace = r.reverse := by
    apply dropWhile_eq_self_of_head
    intro c hc
    rw [List.head?_reverse] at hc
    exact stripList_getLast (hr ▸ hc)
  show ((r.dropWhile Char.isWhitespace).reverse.dropWhile Char.isWhitespace).reverse = r
  rw [h1, h2, List.reverse_reverse]

theorem pyStrip_data (s : String) : (pyStrip s).data = pyStripList s.data := rfl

theorem pyStrip_idem (s : String) : pyStrip (pyStrip s) = pyStrip s := by
  unfold pyStrip
  exact congrArg String.mk (pyStripList_idem s.data)

theorem pyStrip_eq_empty_iff (s : String) : pyStrip s = "" ↔ pyStripList s.data = [] := by
  constructor
  · intro h
    exact congrArg String.data h
  · intro h
    unfold pyStrip
    rw [h]

/-!  Helper lemmas about the validators. -/

theorem validate_name_ok {v n : String} (h : validate_name v = .ok n) :
    n = pyStrip v ∧ goodName n := by
  unfold validate_name at h
  split at h
  · exact absurd h (by simp)
  · split at h
    · exact absurd h (by simp)
    · split at h
      · exact absurd h (by simp)
      · rename_i hne hforb
        obtain rfl : pyStrip v = n := by
          simpa using h
        refine ⟨rfl, ?_, ?_⟩
        · rw [pyStrip_idem]
          exact hne
        · intro c hc
          have hfa : invalidChars.any (fun c => strHasChar (pyStrip v) c) = false := by
            simpa using hforb
          rw [List.any_eq_false] at hfa
          exact hfa c hc

theorem pyDedupAux_spec (seen : List String) :
    ∀ l : List String, (pyDedupAux seen l).Nodup ∧
      (∀ x ∈ pyDedupAux seen l, x ∉ seen ∧ x ∈ l)
  | [] => by simp [pyDedupAux]
  | x :: xs => by
    unfold pyDedupAux
    by_cases hx : x ∈ seen
    · simp only [if_pos hx]
      obtain ⟨h1, h2⟩ := pyDedupAux_spec seen xs
      exact ⟨h1, fun y hy => ⟨(h2 y hy).1, List.mem_cons_of_mem x (h2 y hy).2⟩⟩
    · simp only [if_neg hx]
      obtain ⟨h1, h2⟩ := pyDedupAux_spec (x :: seen) xs
      constructor
      · refine List.Nodup.cons ?_ h1
        intro hmem
        exact (h2 x hmem).1 (List.mem_cons_self x seen)
      · intro y hy
        rcases List.mem_cons.mp hy with rfl | hy'
        · exact ⟨hx, List.mem_cons_self y xs⟩
        · have := h2 y hy'
          exact ⟨fun hs => this.1 (List.mem_cons_of_mem x hs),
            List.mem_cons_of_mem x this.2⟩

theorem pyDedup_nodup (l : List String) : (pyDedup l).Nodup :=
  (pyDedupAux_spec [] l).1

theorem pyDedup_subset {l : List String} {x : String} (h : x ∈ pyDedup l) : x ∈ l :=
  ((pyDedupAux_spec [] l).2 x h).2

theorem mem_pyDedup_of_mem (seen : List String) :
    ∀ {l : List String} {x : String}, x ∈ l → x ∉ seen → x ∈ pyDedupAux seen l
  | [], _, hx, _ => absurd hx (List.not_mem_nil _)
  | y :: ys, x, hx, hs => by
    unfold pyDedupAux
    by_cases hy : y ∈ seen
    · simp only [if_pos hy]
      rcases List.mem_cons.mp hx with rfl | hx'
      · exact absurd hy hs
      · exact mem_pyDedup_of_mem seen hx' hs
    · simp only [if_neg hy]
      rcases List.mem_cons.mp hx with rfl | hx'
      · exact List.mem_cons_self x _
      · by_cases hxy : x = y
        · subst hxy
          exact List.mem_cons_self x _
        · exact List.mem_cons_of_mem y (mem_pyDedup_of_mem (y :: seen) hx'
            (by intro hc; rcases List.mem_cons.mp hc with h | h
                · exact hxy h
                · exact hs h))

theorem mem_pyDedup_iff {l : List String} {x : String} : x ∈ pyDedup l ↔ x ∈ l :=
  ⟨pyDedup_subset, fun h => mem_pyDedup_of_mem [] h (List.not_mem_nil x)⟩

theorem validate_calendar_ids_ok {v u : List String}
    (h : validate_calendar_ids v = .ok u) : u = pyDedup v ∧ u.Nodup := by
  unfold validate_calendar_ids at h
  split at h
  · refine ⟨?_, ?_⟩ <;> simp only [Except.ok.injEq] at h
    · exact h.symm
    · rw [← h]
      exact pyDedup_nodup v
  · exact absurd h (by simp)

theorem mkCalendarGroup_inv {now : Nat} {name : String} {ids : List String}
    {desc : String} {c? m? : Option Nat} {g : CalendarGroup}
    (h : mkCalendarGroup now name ids desc c? m? = .ok g) : GroupInv g := by
  unfold mkCalendarGroup at h
  simp only [bind, Except.bind] at h
  cases hn : validate_name name with
  | error e => rw [hn] at h; exact absurd h (by simp)
  | ok n =>
    rw [hn] at h
    cases hi : validate_calendar_ids ids with
    | error e => rw [hi] at h; exact absurd h (by simp)
    | ok u =>
      rw [hi] at h
      cases hd : validate_description desc with
      | error e => rw [hd] at h; exact absurd h (by simp)
      | ok d =>
        rw [hd] at h
        simp only [pure, Except.pure, Except.ok.injEq] at h
        obtain rfl := h
        exact ⟨(validate_calendar_ids_ok hi).2, (validate_name_ok hn).2⟩

/-!  Helper lemmas about the association-list dictionary operations. -/

theorem mem_setKey {gs : List (String × CalendarGroup)} {k : String}
    {v : CalendarGroup} {p : String × CalendarGroup} (h : p ∈ setKey gs k v) :
    p = (k, v) ∨ p ∈ gs := by
  induction gs with
  | nil => simpa [setKey] using h
  | cons q rest ih =>
    unfold setKey at h
    by_cases hk : q.1 = k
    · rw [if_pos hk] at h
      rcases List.mem_cons.mp h with rfl | h'
      · exact Or.inl rfl
      · exact Or.inr (List.mem_cons_of_mem q h')
    · rw [if_neg hk] at h
      rcases List.mem_cons.mp h with rfl | h'
      · exact Or.inr (List.mem_cons_self _ _)
      · rcases ih h' with h'' | h''
        · exact Or.inl h''
        · exact Or.inr (List.mem_cons_of_mem q h'')

theorem mem_delKey {gs : List (String × CalendarGroup)} {k : String}
    {p : String × CalendarGroup} (h : p ∈ delKey gs k) : p ∈ gs := by
  induction gs with
  | nil => exact h
  | cons q rest ih =>
    unfold delKey at h
    by_cases hk : q.1 = k
    · rw [if_pos hk] at h
      exact List.mem_cons_of_mem q h
    · rw [if_neg hk] at h
      rcases List.mem_cons.mp h with rfl | h'
      · exact List.mem_cons_self _ _
      · exact List.mem_cons_of_mem q (ih h')

theorem setKey_of_not_hasKey {gs : List (String × CalendarGroup)} {k : String}
    (v : CalendarGroup) (h : hasKey gs k = false) : setKey gs k v = gs ++ [(k, v)] := by
  induction gs with
  | nil => rfl
  | cons q rest ih =>
    unfold hasKey at h
    simp only [List.any_cons, Bool.or_eq_false_iff] at h
    unfold setKey
    rw [if_neg (by simpa using h.1)]
    rw [ih (by unfold hasKey; exact h.2)]
    rfl

theorem find?_delKey_ne {gs : List (String × CalendarGroup)} {k k' : String}
    (hne : k' ≠ k) :
    (delKey gs k).find? (fun p => p.1 == k') = gs.find? (fun p => p.1 == k') := by
  induction gs with
  | nil => rfl
  | cons q rest ih =>
    unfold delKey
    by_cases hk : q.1 = k
    · rw [if_pos hk]
      have : (q.1 == k') = false := by
        simp [hk]
        exact fun hc => hne hc.symm
      rw [List.find?_cons, this]
    · rw [if_neg hk]
      by_cases hq : q.1 = k'
      · have hb : (q.1 == k') = true := by simpa using hq
        simp only [List.find?_cons, hb]
      · rw [List.find?_cons, List.find?_cons]
        simp only [show (q.1 == k') = false by simpa using hq]
        exact ih

theorem find?_setKey_self {k : String} {v : CalendarGroup} :
    ∀ {gs : List (String × CalendarGroup)},
      (setKey gs k v).find? (fun p => p.1 == k) = some (k, v)
  | [] => by simp [setKey]
  | q :: rest => by
    unfold setKey
    by_cases hk : q.1 = k
    · rw [if_pos hk]
      simp [List.find?_cons]
    · rw [if_neg hk]
      rw [List.find?_cons]
      simp only [show (q.1 == k) = false by simpa using hk]
      exact find?_setKey_self

theorem setKey_eq_self {k : String} {v : CalendarGroup} :
    ∀ {gs : List (String × CalendarGroup)},
      gs.find? (fun p => p.1 == k) = some (k, v) → setKey gs k v = gs
  | [], h => by simp at h
  | q :: rest, h => by
    unfold setKey
    by_cases hk : q.1 = k
    · rw [if_pos hk]
      rw [List.find?_cons] at h
      simp only [show (q.1 == k) = true by simpa using hk] at h
      simp only [Option.some.injEq] at h
      rw [h]
    · rw [if_neg hk]
      rw [List.find?_cons] at h
      simp only [show (q.1 == k) = false by simpa using hk] at h
      rw [setKey_eq_self h]

theorem hasKey_false_iff {gs : List (String × CalendarGroup)} {k : String} :
    hasKey gs k = false ↔ k ∉ gs.map (·.1) := by
  unfold hasKey
  rw [List.any_eq_false]
  constructor
  · intro h hk
    obtain ⟨p, hp, hpk⟩ := List.mem_map.mp hk
    exact h p hp (by simpa using hpk)
  · intro h p hp hbeq
    exact h (List.mem_map.mpr ⟨p, hp, by simpa using hbeq⟩)

theorem hasKey_true_of_lookup {s : GroupsSchema} {k : String} {g : CalendarGroup}
    (h : lookupGroup s k = some g) : hasKey s.groups k = true := by
  unfold lookupGroup at h
  cases hf : s.groups.find? (fun p => p.1 == k) with
  | none => rw [hf] at h; exact absurd h (by simp)
  | some p =>
    unfold hasKey
    rw [List.any_eq_true]
    have hpred := List.find?_some hf
    exact ⟨p, List.mem_of_find?_eq_some hf, hpred⟩

theorem lookup_pair_mem {s : GroupsSchema} {k : String} {g : CalendarGroup}
    (h : lookupGroup s k = some g) : (k, g) ∈ s.groups := by
  unfold lookupGroup at h
  cases hf : s.groups.find? (fun p => p.1 == k) with
  | none => rw [hf] at h; exact absurd h (by simp)
  | some p =>
    rw [hf] at h
    have hg : p.2 = g := by simpa using h
    have hk : p.1 = k := by simpa using List.find?_some hf
    have hm := List.mem_of_find?_eq_some hf
    have hpk : p = (k, g) := by
      cases p
      simp only [Prod.mk.injEq]
      exact ⟨hk, hg⟩
    rw [← hpk]
    exact hm

theorem find?_of_mem_nodup_keys {gs : List (String × CalendarGroup)}
    {p : String × CalendarGroup} (hnd : (gs.map (·.1)).Nodup) (hp : p ∈ gs) :
    gs.find? (fun q => q.1 == p.1) = some p := by
  induction gs with
  | nil => exact absurd hp (List.not_mem_nil p)
  | cons q rest ih =>
    simp only [List.map_cons, List.nodup_cons] at hnd
    rcases List.mem_cons.mp hp with rfl | hp'
    · rw [List.find?_cons]
      simp
    · rw [List.find?_cons]
      have hne : (q.1 == p.1) = false := by
        simp only [beq_eq_false_iff_ne, ne_eq]
        intro hc
        exact hnd.1 (hc ▸ List.mem_map_of_mem (·.1) hp')
      rw [hne]
      exact ih hnd.2 hp'

theorem lookup_of_mem_wf {s : GroupsSchema} {p : String × CalendarGroup}
    (hwf : SchemaWF s) (hp : p ∈ s.groups) : lookupGroup s p.1 = some p.2 := by
  unfold lookupGroup
  rw [find?_of_mem_nodup_keys hwf.1 hp]
  rfl

theorem values_nodup {s : GroupsSchema} (hwf : SchemaWF s) :
    (s.groups.map (·.2)).Nodup := by
  have hgs : s.groups.Nodup := List.Nodup.of_map _ hwf.1
  refine List.Nodup.map_on ?_ hgs
  intro p hp q hq hpq
  have h1 : p.1 = q.1 := by
    rw [hwf.2 p hp, hwf.2 q hq, hpq]
  have := List.inj_on_of_nodup_map hwf.1 hp hq h1
  exact this

theorem validate_description_ok {v d : String} (h : validate_description v = .ok d) :
    d = pyStrip v := by
  unfold validate_description at h
  split at h
  · exact absurd h (by simp)
  · simpa using h.symm

theorem mkCalendarGroup_fields {now : Nat} {name : String} {ids : List String}
    {desc : String} {c? m? : Option Nat} {g : CalendarGroup}
    (h : mkCalendarGroup now name ids desc c? m? = .ok g) :
    g.name = pyStrip name ∧ g.calendar_ids = pyDedup ids ∧
      g.description = pyStrip desc ∧ g.created = c?.getD now ∧
      g.modified = m?.getD now := by
  unfold mkCalendarGroup at h
  simp only [bind, Except.bind] at h
  cases hn : validate_name name with
  | error e => rw [hn] at h; exact absurd h (by simp)
  | ok n =>
    rw [hn] at h
    cases hi : validate_calendar_ids ids with
    | error e => rw [hi] at h; exact absurd h (by simp)
    | ok u =>
      rw [hi] at h
      cases hd : validate_description desc with
      | error e => rw [hd] at h; exact absurd h (by simp)
      | ok d =>
        rw [hd] at h
        simp only [pure, Except.pure, Except.ok.injEq] at h
        obtain rfl := h
        exact ⟨(validate_name_ok hn).1, (validate_calendar_ids_ok hi).1,
          validate_description_ok hd, rfl, rfl⟩

theorem find?_delKey_self {gs : List (String × CalendarGroup)} {k : String}
    (hnd : (gs.map (·.1)).Nodup) :
    (delKey gs k).find? (fun p => p.1 == k) = none := by
  induction gs with
  | nil => rfl
  | cons q rest ih =>
    simp only [List.map_cons, List.nodup_cons] at hnd
    unfold delKey
    by_cases hk : q.1 = k
    · rw [if_pos hk]
      rw [List.find?_eq_none]
      intro p hp hbeq
      apply hnd.1
      rw [hk, ← (by simpa using hbeq : p.1 = k)]
      exact List.mem_map_of_mem (·.1) hp
    · rw [if_neg hk]
      rw [List.find?_cons]
      simp only [show (q.1 == k) = false by simpa using hk]
      exact ih hnd.2

/-!  Claim C6: serialisation round trip. -/

/-- C6: for every valid `CalendarGroup` `g`, deserialising the
serialisation of `g` (`from_dict(to_dict(g))`) yields a group whose
`name`, `calendar_ids`, `description`, `created` and `modified` all
equal those of `g` (here: yields `g` itself). -/
theorem from_dict_to_dict_roundtrip (now : Nat) (g : CalendarGroup)
    (h : validGroup g) : from_dict now (to_dict g) = .ok g := by
  have hirrel : from_dict now (to_dict g)
      = mkCalendarGroup 0 g.name g.calendar_ids g.description
          (some g.created) (some g.modified) := rfl
  rw [hirrel]
  exact h

/-- Witness for C6 at a concrete valid group. -/
theorem from_dict_to_dict_roundtrip_witness :
    from_dict 7 (to_dict ⟨"work", ["a"], "", 1, 2⟩) = .ok ⟨"work", ["a"], "", 1, 2⟩ :=
  from_dict_to_dict_roundtrip 7 ⟨"work", ["a"], "", 1, 2⟩ rfl

/-!  Claim C8: `modified ≥ created` by construction. -/

/-- C8 counterexample: `from_dict` on data whose `modified` (1) precedes
its `created` (2) constructs the group unchanged, so the constructed
group violates `modified ≥ created`. -/
theorem from_dict_allows_modified_before_created :
    from_dict 5 ⟨"g", [], "", 2, 1⟩ = .ok ⟨"g", [], "", 2, 1⟩ ∧
      ¬ ((⟨"g", [], "", 2, 1⟩ : CalendarGroup).created
          ≤ (⟨"g", [], "", 2, 1⟩ : CalendarGroup).modified) :=
  ⟨rfl, by decide⟩

/-- C8 (amended): a group constructed without explicit timestamps gets
`created = modified =` the construction time, so `modified ≥ created`;
explicitly supplied timestamps (the deserialisation path) are stored
verbatim, with no ordering enforced. -/
theorem construction_timestamp_order (now : Nat) (name : String)
    (ids : List String) (desc : String) (c m : Nat) :
    (∀ g, mkCalendarGroup now name ids desc none none = .ok g →
        g.created = now ∧ g.modified = now ∧ g.created ≤ g.modified) ∧
    (∀ g, mkCalendarGroup now name ids desc (some c) (some m) = .ok g →
        g.created = c ∧ g.modified = m) := by
  constructor
  · intro g h
    have hf := mkCalendarGroup_fields h
    have hc : g.created = now := hf.2.2.2.1
    have hm : g.modified = now := hf.2.2.2.2
    exact ⟨hc, hm, by rw [hc, hm]⟩
  · intro g h
    have hf := mkCalendarGroup_fields h
    exact ⟨hf.2.2.2.1, hf.2.2.2.2⟩

/-- Witness for C8 (amended) at concrete constructions. -/
theorem construction_timestamp_order_witness :
    ((⟨"g", [], "", 3, 3⟩ : CalendarGroup).created = 3 ∧
      (⟨"g", [], "", 3, 3⟩ : CalendarGroup).modified = 3 ∧
      (⟨"g", [], "", 3, 3⟩ : CalendarGroup).created
        ≤ (⟨"g", [], "", 3, 3⟩ : CalendarGroup).modified) ∧
    ((⟨"g", [], "", 4, 9⟩ : CalendarGroup).created = 4 ∧
      (⟨"g", [], "", 4, 9⟩ : CalendarGroup).modified = 9) :=
  ⟨(construction_timestamp_order 3 "g" [] "" 4 9).1 ⟨"g", [], "", 3, 3⟩ rfl,
    (construction_timestamp_order 3 "g" [] "" 4 9).2 ⟨"g", [], "", 4, 9⟩ rfl⟩

/-!  Claim C5: idempotence of `add_calendar`. -/

/-- C5 counterexample: for an existing group that already contains the
id, the first of the two calls returns `false`, not `true` (and
persists nothing), refuting the unconditional claim. -/
theorem add_calendar_first_call_false :
    add_calendar_to_group 1 "g" "x" ⟨"1.0", [("g", ⟨"g", ["x"], "", 0, 0⟩)]⟩
      = (.ok false, ⟨"1.0", [("g", ⟨"g", ["x"], "", 0, 0⟩)]⟩, false) := rfl

/-- C5 (amended): for an existing group `g` not yet containing `x`,
adding `x` twice returns `true` then `false`, the first call persists
and the second does not, the state after the second call is the state
after the first, and `x` occurs exactly once afterwards; on an absent
group the call fails with `NotFound` and persists nothing. -/
theorem add_calendar_idempotent (s : GroupsSchema) (n1 n2 : Nat)
    (gname x : String) :
    (lookupGroup s gname = none →
      add_calendar_to_group n1 gname x s = (.error (.notFound gname), s, false)) ∧
    (∀ g, lookupGroup s gname = some g → x ∉ g.calendar_ids →
      ∃ s1 g1, add_calendar_to_group n1 gname x s = (.ok true, s1, true) ∧
        add_calendar_to_group n2 gname x s1 = (.ok false, s1, false) ∧
        lookupGroup s1 gname = some g1 ∧ g1.calendar_ids.count x = 1) := by
  constructor
  · intro h
    unfold add_calendar_to_group
    rw [h]
  · intro g hg hx
    have hg1 : ∃ g1 : CalendarGroup,
        g1 = { g with calendar_ids := g.calendar_ids ++ [x], modified := n1 } :=
      ⟨_, rfl⟩
    obtain ⟨g1, hg1⟩ := hg1
    have hmem : x ∈ g1.calendar_ids := by
      rw [hg1]
      exact List.mem_append_right _ (List.mem_singleton.mpr rfl)
    refine ⟨{ s with groups := setKey s.groups gname g1 }, g1, ?_, ?_, ?_, ?_⟩
    · simp [add_calendar_to_group, hg, groupAddCalendar, hx, hg1]
    · have hlk : lookupGroup { s with groups := setKey s.groups gname g1 } gname
          = some g1 := by
        unfold lookupGroup
        rw [find?_setKey_self]
        rfl
      have hsame : setKey (setKey s.groups gname g1) gname g1
          = setKey s.groups gname g1 :=
        setKey_eq_self find?_setKey_self
      simp [add_calendar_to_group, hlk, groupAddCalendar, hmem, hsame]
    · unfold lookupGroup
      rw [find?_setKey_self]
      rfl
    · rw [hg1]
      simp only [List.count_append]
      rw [List.count_eq_zero.mpr hx]
      simp

/-- Witness for C5 (amended) at a concrete schema. -/
theorem add_calendar_idempotent_witness :
    ∃ s1 g1, add_calendar_to_group 1 "g" "x" ⟨"1.0", [("g", ⟨"g", [], "", 0, 0⟩)]⟩
        = (.ok true, s1, true) ∧
      add_calendar_to_group 2 "g" "x" s1 = (.ok false, s1, false) ∧
      lookupGroup s1 "g" = some g1 ∧ g1.calendar_ids.count "x" = 1 :=
  (add_calendar_idempotent ⟨"1.0", [("g", ⟨"g", [], "", 0, 0⟩)]⟩ 1 2 "g" "x").2
    ⟨"g", [], "", 0, 0⟩ rfl (by decide)

/-!  Claim C2: the cleanup report. -/

/-- C2: the code at the failing input.  The group holds ids
`["a", "b"]` of which only `"b"` is invalid; cleanup removes `"b"` and
reports `removed_count = 1` and `invalid_calendars = ["b"]` as the
claim states, but reports `remaining_calendars = 0` although one id
(`"a"`) actually remains in the group — because the live (aliased)
post-removal length is used in the subtraction. -/
theorem cleanup_remaining_miscount :
    (cleanup_invalid_calendars ⟨fun _ => none, fun _ => none, ["a"]⟩ 5 "g"
        ⟨"1.0", [("g", ⟨"g", ["a", "b"], "", 0, 0⟩)]⟩).1
      = .ok ⟨"g", 1, ["b"], 0⟩ ∧
    lookupGroup (cleanup_invalid_calendars ⟨fun _ => none, fun _ => none, ["a"]⟩ 5 "g"
        ⟨"1.0", [("g", ⟨"g", ["a", "b"], "", 0, 0⟩)]⟩).2 "g"
      = some ⟨"g", ["a"], "", 0, 5⟩ :=
  ⟨rfl, rfl⟩

/-!  Claim C3: `load` never raises. -/

/-- C3 counterexample: a primary file whose content is valid JSON but a
bare number makes `migrate_schema` raise `TypeError` (`"version" in 5`),
which `load_groups` does not catch — so `load` can raise to the
caller. -/
theorem load_raises_on_numeric_json :
    load_groups ⟨some (some (.num 5)), []⟩ = .error .typeError := rfl

theorem restoreLoop_ok {l : List (Nat × Option JVal)}
    (h : ∀ m j, (m, some j) ∈ l → ∃ d, migrate_schema j = .ok d) :
    ∃ r, restoreLoop l = .ok r := by
  induction l with
  | nil => exact ⟨none, rfl⟩
  | cons e rest ih =>
    obtain ⟨m, o⟩ := e
    cases o with
    | none =>
      exact ih (fun m' j' hj' => h m' j' (List.mem_cons_of_mem _ hj'))
    | some j =>
      obtain ⟨d, hd⟩ := h m j (List.mem_cons_self _ _)
      refine ⟨some d, ?_⟩
      unfold restoreLoop
      rw [hd]

theorem restoreLoop_all_none {l : List (Nat × Option JVal)}
    (h : ∀ e ∈ l, e.2 = none) : restoreLoop l = .ok none := by
  induction l with
  | nil => rfl
  | cons e rest ih =>
    obtain ⟨m, o⟩ := e
    have : o = none := h (m, o) (List.mem_cons_self _ _)
    subst this
    exact ih (fun e' he' => h e' (List.mem_cons_of_mem _ he'))

theorem restoreLoop_first {pre : List (Nat × Option JVal)} {m : Nat} {j d : JVal}
    {suf : List (Nat × Option JVal)} (hpre : ∀ e ∈ pre, e.2 = none)
    (hm : migrate_schema j = .ok d) :
    restoreLoop (pre ++ (m, some j) :: suf) = .ok (some d) := by
  induction pre with
  | nil => simp [restoreLoop, hm]
  | cons e rest ih =>
    obtain ⟨m', o⟩ := e
    have : o = none := hpre (m', o) (List.mem_cons_self _ _)
    subst this
    exact ih (fun e' he' => hpre e' (List.mem_cons_of_mem _ he'))

/-- C3 (amended): whenever `migrate_schema` succeeds on every content
that parses (it can raise `TypeError` on non-container JSON, see the
counterexample), `load` never raises; an absent primary yields the
canonical empty schema; a parsing primary yields its migration; an
unreadable primary yields the migrated content of the first backup that
parses, the backups being tried in modification-time-descending
(stable) order; and when no backup parses, the canonical empty schema
is returned. -/
theorem load_groups_recovery (st : StorageState)
    (hp : ∀ j, st.primary = some (some j) → ∃ d, migrate_schema j = .ok d)
    (hb : ∀ m j, (m, some j) ∈ st.backups → ∃ d, migrate_schema j = .ok d) :
    (∃ d, load_groups st = .ok d) ∧
    (st.primary = none → load_groups st = .ok emptySchemaJson) ∧
    (∀ j, st.primary = some (some j) → load_groups st = migrate_schema j) ∧
    (st.primary = some none →
      (List.insertionSort (fun a b => b.1 ≤ a.1) st.backups).Perm st.backups ∧
      ((List.insertionSort (fun a b => b.1 ≤ a.1) st.backups).map (·.1)).Sorted
        (fun a b => b ≤ a) ∧
      ((∀ e ∈ List.insertionSort (fun a b => b.1 ≤ a.1) st.backups, e.2 = none) →
        load_groups st = .ok emptySchemaJson) ∧
      (∀ pre m j suf,
        List.insertionSort (fun a b => b.1 ≤ a.1) st.backups
          = pre ++ (m, some j) :: suf →
        (∀ e ∈ pre, e.2 = none) →
        ∃ d, migrate_schema j = .ok d ∧ load_groups st = .ok d)) := by
  have hperm : (List.insertionSort (fun a b => b.1 ≤ a.1) st.backups).Perm st.backups :=
    List.perm_insertionSort _ _
  refine ⟨?_, ?_, ?_, ?_⟩
  · cases hpr : st.primary with
    | none => exact ⟨emptySchemaJson, by simp [load_groups, hpr]⟩
    | some o =>
      cases o with
      | some j =>
        obtain ⟨d, hd⟩ := hp j (by rw [hpr])
        refine ⟨d, ?_⟩
        simp [load_groups, hpr, hd]
      | none =>
        obtain ⟨r, hr⟩ := restoreLoop_ok (l := List.insertionSort
            (fun a b => b.1 ≤ a.1) st.backups)
          (fun m j hj => hb m j (hperm.mem_iff.mp hj))
        cases r with
        | none =>
          exact ⟨emptySchemaJson, by simp [load_groups, hpr, restore_from_backup, hr]⟩
        | some d =>
          exact ⟨d, by simp [load_groups, hpr, restore_from_backup, hr]⟩
  · intro h
    simp [load_groups, h]
  · intro j hj
    simp [load_groups, hj]
  · intro hpr
    refine ⟨hperm, ?_, ?_, ?_⟩
    · haveI htot : IsTotal (Nat × Option JVal) (fun a b => b.1 ≤ a.1) :=
        ⟨fun a b => le_total b.1 a.1⟩
      haveI htr : IsTrans (Nat × Option JVal) (fun a b => b.1 ≤ a.1) :=
        ⟨fun _ _ _ hab hbc => le_trans hbc hab⟩
      have hs := List.sorted_insertionSort (fun a b => b.1 ≤ a.1) st.backups
      unfold List.Sorted at hs ⊢
      rw [List.pairwise_map]
      exact hs
    · intro hall
      simp [load_groups, hpr, restore_from_backup, restoreLoop_all_none hall]
    · intro pre m j suf hsplit hpre
      have hjmem : (m, some j) ∈ st.backups := by
        refine hperm.mem_iff.mp ?_
        rw [hsplit]
        exact List.mem_append_right _ (List.mem_cons_self _ _)
      obtain ⟨d, hd⟩ := hb m j hjmem
      refine ⟨d, hd, ?_⟩
      simp [load_groups, hpr, restore_from_backup, hsplit, restoreLoop_first hpre hd]

/-- Witness for C3 (amended) at a concrete storage state: the primary
is unreadable, the older backup parses and the newer one does not, so
load returns the older backup's (migrated) content. -/
theorem load_groups_recovery_witness :
    ∃ d, migrate_schema (.obj [("version", .str "1.0"), ("groups", .obj [])]) = .ok d ∧
      load_groups ⟨some none,
        [(1, some (.obj [("version", .str "1.0"), ("groups", .obj [])])), (2, none)]⟩
        = .ok d := by
  have h := load_groups_recovery
    ⟨some none, [(1, some (.obj [("version", .str "1.0"), ("groups", .obj [])])), (2, none)]⟩
    (by intro j hj; simp at hj)
    (by
      intro m j hj
      simp only [List.mem_cons, List.not_mem_nil, or_false, Prod.mk.injEq,
        List.mem_singleton] at hj
      rcases hj with ⟨_, hj⟩ | ⟨_, hj⟩
      · cases hj
        exact ⟨_, rfl⟩
      · cases hj)
  exact (h.2.2.2 rfl).2.2.2 [(2, none)] 1
    (.obj [("version", .str "1.0"), ("groups", .obj [])]) [] rfl
    (by intro e he; rw [List.mem_singleton] at he; rw [he])

/-!  Claim C4: rename semantics. -/

/-- C4: `rename(old, new)` fails with `NotFound` when `old` is absent
and with `AlreadyExists` when `new` is already a key, in both cases
leaving the schema completely unchanged and persisting nothing; on
success the `old` key is removed, the `new` key maps to the group with
its `name` set to `new` and `modified` bumped, every other entry is
untouched, and the result is persisted. -/
theorem rename_group_spec (s : GroupsSchema) (now : Nat)
    (old_name new_name : String) (hnd : (s.groups.map (·.1)).Nodup) :
    (lookupGroup s old_name = none →
      rename_group now old_name new_name s
        = (.error (.notFound old_name), s, false)) ∧
    (∀ g, lookupGroup s old_name = some g → hasKey s.groups new_name = true →
      rename_group now old_name new_name s
        = (.error (.alreadyExists new_name), s, false)) ∧
    (∀ g, lookupGroup s old_name = some g → hasKey s.groups new_name = false →
      ∃ s', rename_group now old_name new_name s
          = (.ok { g with name := new_name, modified := now }, s', true) ∧
        lookupGroup s' new_name = some { g with name := new_name, modified := now } ∧
        lookupGroup s' old_name = none ∧
        ∀ k, k ≠ old_name → k ≠ new_name → lookupGroup s' k = lookupGroup s k) := by
  refine ⟨?_, ?_, ?_⟩
  · intro h
    simp [rename_group, h]
  · intro g hg hnew
    simp [rename_group, hg, hnew]
  · intro g hg hnew
    have hne : old_name ≠ new_name := by
      intro h
      have ht := hasKey_true_of_lookup hg
      rw [h] at ht
      rw [ht] at hnew
      cases hnew
    have happ : setKey s.groups new_name { g with name := new_name, modified := now }
        = s.groups ++ [(new_name, { g with name := new_name, modified := now })] :=
      setKey_of_not_hasKey _ hnew
    have hkeys : ((setKey s.groups new_name
        { g with name := new_name, modified := now }).map (·.1)).Nodup := by
      rw [happ, List.map_append]
      rw [List.nodup_append]
      refine ⟨hnd, List.nodup_singleton _, ?_⟩
      intro k hk hk'
      simp only [List.map_cons, List.map_nil, List.mem_singleton] at hk'
      rw [hasKey_false_iff] at hnew
      exact hnew (hk' ▸ hk)
    refine ⟨⟨s.version, delKey (setKey s.groups new_name
        { g with name := new_name, modified := now }) old_name⟩, ?_, ?_, ?_, ?_⟩
    · simp [rename_group, hg, hnew]
    · unfold lookupGroup
      rw [find?_delKey_ne (fun h => hne h.symm)]
      rw [find?_setKey_self]
      rfl
    · unfold lookupGroup
      rw [find?_delKey_self hkeys]
      rfl
    · intro k hkold hknew
      unfold lookupGroup
      rw [find?_delKey_ne hkold, happ, List.find?_append]
      have hnil : List.find? (fun p => p.1 == k)
          [(new_name, { g with name := new_name, modified := now })] = none := by
        rw [List.find?_eq_none]
        intro p hp
        rw [List.mem_singleton] at hp
        rw [hp]
        simpa using fun h => hknew h.symm
      rw [hnil, Option.or_none]

/-- Witness for C4 at a concrete schema: renaming `"a"` to `"c"` with
`"b"` also present. -/
theorem rename_group_spec_witness :
    ∃ s', rename_group 7 "a" "c" ⟨"1.0", [("a", ⟨"a", ["x"], "", 0, 0⟩),
        ("b", ⟨"b", [], "", 0, 0⟩)]⟩
        = (.ok ⟨"c", ["x"], "", 0, 7⟩, s', true) ∧
      lookupGroup s' "c" = some ⟨"c", ["x"], "", 0, 7⟩ ∧
      lookupGroup s' "a" = none ∧
      ∀ k, k ≠ "a" → k ≠ "c" →
        lookupGroup s' k = lookupGroup ⟨"1.0", [("a", ⟨"a", ["x"], "", 0, 0⟩),
          ("b", ⟨"b", [], "", 0, 0⟩)]⟩ k :=
  (rename_group_spec ⟨"1.0", [("a", ⟨"a", ["x"], "", 0, 0⟩),
      ("b", ⟨"b", [], "", 0, 0⟩)]⟩ 7 "a" "c" (by decide)).2.2
    ⟨"a", ["x"], "", 0, 0⟩ rfl (by decide)

/-!  Claim C10: create with an untrimmed name colliding after
trimming. -/

/-- C10: when the schema holds a group named `t` and the raw input name
`s_name` (not itself a key) trims to `t`, `create` raises no
`AlreadyExists` — the duplicate check uses the raw name while the
constructed group's name is the trimmed `t`; `GroupsSchema.add_group`
refuses the colliding key (a return value `create` ignores), so the
stored mapping is completely unchanged, yet it is re-persisted, and the
freshly constructed group is returned without being present anywhere in
the schema. -/
theorem create_group_trimmed_collision (s : GroupsSchema) (now : Nat)
    (s_name t : String) (ids : List String) (desc : String)
    (oldG newG : CalendarGroup) (hwf : SchemaWF s)
    (hkey : hasKey s.groups s_name = false)
    (hold : lookupGroup s t = some oldG)
    (hmk : mkCalendarGroup now s_name ids desc none none = .ok newG)
    (htrim : pyStrip s_name = t) :
    create_group now s_name ids desc s = (.ok newG, s, true) ∧
    newG.name = t ∧
    (newG ≠ oldG → ∀ p ∈ s.groups, p.2 ≠ newG) := by
  have hname : newG.name = t := by
    rw [(mkCalendarGroup_fields hmk).1, htrim]
  refine ⟨?_, hname, ?_⟩
  · simp [create_group, hkey, hmk, add_group, hname, hasKey_true_of_lookup hold]
  · intro hne p hp hpeq
    have hkt : p.1 = t := by
      rw [hwf.2 p hp, hpeq, hname]
    have hl := lookup_of_mem_wf hwf hp
    rw [hkt, hpeq, hold] at hl
    exact hne (by injection hl with h; exact h.symm)

/-- Witness for C10: creating `" work "` (which trims to the existing
key `"work"`) returns a fresh group, leaves the schema unchanged, and
still persists. -/
theorem create_group_trimmed_collision_witness :
    create_group 9 " work " ["b"] "" ⟨"1.0", [("work", ⟨"work", ["a"], "", 0, 0⟩)]⟩
        = (.ok ⟨"work", ["b"], "", 9, 9⟩, ⟨"1.0", [("work", ⟨"work", ["a"], "", 0, 0⟩)]⟩,
          true) ∧
      (⟨"work", ["b"], "", 9, 9⟩ : CalendarGroup).name = "work" ∧
      ((⟨"work", ["b"], "", 9, 9⟩ : CalendarGroup) ≠ ⟨"work", ["a"], "", 0, 0⟩ →
        ∀ p ∈ [(("work" : String), (⟨"work", ["a"], "", 0, 0⟩ : CalendarGroup))],
          p.2 ≠ ⟨"work", ["b"], "", 9, 9⟩) :=
  create_group_trimmed_collision ⟨"1.0", [("work", ⟨"work", ["a"], "", 0, 0⟩)]⟩ 9
    " work " "work" ["b"] "" ⟨"work", ["a"], "", 0, 0⟩ ⟨"work", ["b"], "", 9, 9⟩
    (by decide) (by decide) rfl rfl rfl

/-!  Claim C9: removal by a non-resolving calendar name. -/

theorem removeByNameLoop_none {env : CalEnv} {gname : String} :
    ∀ {l : List CalendarGroup}, (∀ h ∈ l, h.name ≠ gname) →
      removeByNameLoop env gname l = none
  | [], _ => rfl
  | g :: rest, h => by
    unfold removeByNameLoop
    rw [if_neg (h g (List.mem_cons_self _ _))]
    exact removeByNameLoop_none (fun h' hh' => h h' (List.mem_cons_of_mem _ hh'))

theorem removeByNameLoop_split {env : CalEnv} {gname : String} {g : CalendarGroup}
    {suf : List CalendarGroup} (hgname : g.name = gname)
    (hsuf : ∀ h ∈ suf, h.name ≠ gname) :
    ∀ {pre : List CalendarGroup}, (∀ h ∈ pre, h.name ≠ gname) →
      removeByNameLoop env gname (pre ++ g :: suf)
        = g.calendar_ids.find? (fun cid => (env.resolveId cid).isNone)
  | [], _ => by
    rw [List.nil_append]
    unfold removeByNameLoop
    rw [if_pos hgname]
    cases hf : g.calendar_ids.find? (fun cid => (env.resolveId cid).isNone) with
    | some cid => rfl
    | none => exact removeByNameLoop_none hsuf
  | h :: rest, hpre => by
    rw [List.cons_append]
    unfold removeByNameLoop
    rw [if_neg (hpre h (List.mem_cons_self _ _))]
    exact removeByNameLoop_split hgname hsuf
      (fun h' hh' => hpre h' (List.mem_cons_of_mem _ hh'))

/-- C9: when the calendar name `cname` resolves to no external calendar
but the (existing) group `g` contains at least one id that no longer
resolves, `remove_calendar_from_group_by_name` does not raise: it
delegates to the manager's removal of the first such dangling id (in
`calendar_ids` order, regardless of any connection to `cname`), which
succeeds; it raises `NotFound` for the calendar name exactly when every
id of `g` still resolves. -/
theorem remove_by_name_fallback (env : CalEnv) (now : Nat) (s : GroupsSchema)
    (gname cname : String) (g : CalendarGroup) (hwf : SchemaWF s)
    (hres : env.resolveName cname = none)
    (hg : lookupGroup s gname = some g) :
    (∀ cid, g.calendar_ids.find? (fun c => (env.resolveId c).isNone) = some cid →
      remove_calendar_from_group_by_name env now gname cname s
        = remove_calendar_from_group now gname cid s ∧
      (remove_calendar_from_group now gname cid s).1 = .ok true) ∧
    ((∀ cid ∈ g.calendar_ids, (env.resolveId cid).isSome) →
      remove_calendar_from_group_by_name env now gname cname s
        = (.error (.notFound cname), s, false)) := by
  have hgname : g.name = gname := by
    have hm := lookup_pair_mem hg
    have := hwf.2 (gname, g) hm
    exact this.symm
  have huniq : ∀ h ∈ s.groups.map (·.2), h.name = gname → h = g := by
    intro h hm hn
    obtain ⟨p, hp, hph⟩ := List.mem_map.mp hm
    have hl := lookup_of_mem_wf hwf hp
    rw [hwf.2 p hp, hph, hn, hg] at hl
    injection hl with hl
    exact hl.symm
  have hmemv : g ∈ s.groups.map (·.2) :=
    List.mem_map_of_mem (·.2) (lookup_pair_mem hg)
  have hperm : (list_groups s).Perm (s.groups.map (·.2)) :=
    List.perm_insertionSort _ _
  have hmemsorted : g ∈ list_groups s := hperm.mem_iff.mpr hmemv
  have hsortnd : (list_groups s).Nodup :=
    (hperm.nodup_iff).mpr (values_nodup hwf)
  obtain ⟨pre, suf, hsplit⟩ := List.append_of_mem hmemsorted
  have hnd' : pre.Nodup ∧ (g :: suf).Nodup ∧ pre.Disjoint (g :: suf) := by
    rw [hsplit] at hsortnd
    exact List.nodup_append.mp hsortnd
  have hgpre : g ∉ pre := fun hc => hnd'.2.2 hc (List.mem_cons_self _ _)
  have hgsuf : g ∉ suf := (List.nodup_cons.mp hnd'.2.1).1
  have hpre : ∀ h ∈ pre, h.name ≠ gname := by
    intro h hh hn
    have : h = g := huniq h (hperm.mem_iff.mp (hsplit ▸ List.mem_append_left _ hh)) hn
    exact hgpre (this ▸ hh)
  have hsuf : ∀ h ∈ suf, h.name ≠ gname := by
    intro h hh hn
    have : h = g := huniq h (hperm.mem_iff.mp (hsplit ▸ List.mem_append_right _
      (List.mem_cons_of_mem _ hh))) hn
    exact hgsuf (this ▸ hh)
  have hloop : removeByNameLoop env gname (list_groups s)
      = g.calendar_ids.find? (fun cid => (env.resolveId cid).isNone) := by
    rw [hsplit]
    exact removeByNameLoop_split hgname hsuf hpre
  constructor
  · intro cid hfind
    constructor
    · unfold remove_calendar_from_group_by_name
      rw [hres, hloop, hfind]
    · have hmem : cid ∈ g.calendar_ids := List.mem_of_find?_eq_some hfind
      simp [remove_calendar_from_group, hg, groupRemoveCalendar, hmem]
  · intro hall
    have hfind : g.calendar_ids.find? (fun cid => (env.resolveId cid).isNone) = none := by
      rw [List.find?_eq_none]
      intro c hc
      simp only [Bool.not_eq_true, Option.isNone_eq_false_iff]
      exact hall c hc
    unfold remove_calendar_from_group_by_name
    rw [hres, hloop, hfind]

/-- Witness for C9 at a concrete schema and environment: the group
holds one live and two dangling ids; removing by an unknown calendar
name removes the first dangling id; for a group whose single id is
live, the unknown name raises `NotFound`. -/
theorem remove_by_name_fallback_witness :
    (remove_calendar_from_group_by_name
        ⟨fun _ => none, fun i => if i = "live" then some "Live" else none, []⟩ 3
        "g" "whatever" ⟨"1.0", [("g", ⟨"g", ["live", "dead1", "dead2"], "", 0, 0⟩)]⟩
      = remove_calendar_from_group 3 "g" "dead1"
          ⟨"1.0", [("g", ⟨"g", ["live", "dead1", "dead2"], "", 0, 0⟩)]⟩ ∧
      (remove_calendar_from_group 3 "g" "dead1"
          ⟨"1.0", [("g", ⟨"g", ["live", "dead1", "dead2"], "", 0, 0⟩)]⟩).1 = .ok true) ∧
    remove_calendar_from_group_by_name
        ⟨fun _ => none, fun i => if i = "live" then some "Live" else none, []⟩ 3
        "g" "whatever" ⟨"1.0", [("g", ⟨"g", ["live"], "", 0, 0⟩)]⟩
      = (.error (.notFound "whatever"),
          ⟨"1.0", [("g", ⟨"g", ["live"], "", 0, 0⟩)]⟩, false) :=
  ⟨(remove_by_name_fallback
      ⟨fun _ => none, fun i => if i = "live" then some "Live" else none, []⟩ 3
      ⟨"1.0", [("g", ⟨"g", ["live", "dead1", "dead2"], "", 0, 0⟩)]⟩ "g" "whatever"
      ⟨"g", ["live", "dead1", "dead2"], "", 0, 0⟩ (by decide) rfl rfl).1 "dead1" rfl,
    (remove_by_name_fallback
      ⟨fun _ => none, fun i => if i = "live" then some "Live" else none, []⟩ 3
      ⟨"1.0", [("g", ⟨"g", ["live"], "", 0, 0⟩)]⟩ "g" "whatever"
      ⟨"g", ["live"], "", 0, 0⟩ (by decide) rfl rfl).2
      (by
        intro cid hc
        rw [List.mem_singleton] at hc
        rw [hc]
        rfl)⟩

/-!  Claim C7: group statistics.  Python `max`/`min` with a key return
the first element attaining the extremal key; the next two lemmas state
that shape for the embeddings. -/

theorem pyMaxBy_first {α : Type} (f : α → Nat) :
    ∀ (l : List α) (x : α), ∃ pre suf, x :: l = pre ++ (pyMaxBy f x l) :: suf ∧
      (∀ y ∈ x :: l, f y ≤ f (pyMaxBy f x l)) ∧
      (∀ y ∈ pre, f y < f (pyMaxBy f x l))
  | [], x => ⟨[], [], rfl,
      by intro y hy; rw [List.mem_singleton] at hy; subst hy; exact le_refl _,
      by simp⟩
  | y :: t, x => by
    have hfold : pyMaxBy f x (y :: t) = pyMaxBy f (if f y > f x then y else x) t := rfl
    by_cases hc : f y > f x
    · rw [if_pos hc] at hfold
      obtain ⟨pre, suf, hsp, hbound, hstrict⟩ := pyMaxBy_first f t y
      have hyM : f y ≤ f (pyMaxBy f y t) := hbound y (List.mem_cons_self _ _)
      refine ⟨x :: pre, suf, ?_, ?_, ?_⟩
      · rw [hfold, List.cons_append, ← hsp]
      · intro z hz
        rw [hfold]
        rcases List.mem_cons.mp hz with rfl | hz'
        · omega
        · exact hbound z hz'
      · intro z hz
        rw [hfold]
        rcases List.mem_cons.mp hz with rfl | hz'
        · omega
        · exact hstrict z hz'
    · rw [if_neg hc] at hfold
      have hyx : f y ≤ f x := by omega
      obtain ⟨pre, suf, hsp, hbound, hstrict⟩ := pyMaxBy_first f t x
      have hxM : f x ≤ f (pyMaxBy f x t) := hbound x (List.mem_cons_self _ _)
      cases pre with
      | nil =>
        rw [List.nil_append] at hsp
        have h1 : x = pyMaxBy f x t := by injection hsp
        have h2 : t = suf := by injection hsp
        refine ⟨[], y :: t, ?_, ?_, by simp⟩
        · rw [hfold, List.nil_append, ← h1]
        · intro z hz
          rw [hfold]
          rcases List.mem_cons.mp hz with rfl | hz'
          · exact hxM
          · rcases List.mem_cons.mp hz' with rfl | hz''
            · omega
            · exact hbound z (List.mem_cons_of_mem _ hz'')
      | cons p pre' =>
        rw [List.cons_append] at hsp
        have h1 : x = p := by injection hsp
        have h2 : t = pre' ++ pyMaxBy f x t :: suf := by injection hsp
        have hxpre : f x < f (pyMaxBy f x t) := by
          have hp := hstrict p (List.mem_cons_self _ _)
          rw [← h1] at hp
          exact hp
        refine ⟨x :: y :: pre', suf, ?_, ?_, ?_⟩
        · rw [hfold, List.cons_append, List.cons_append, ← h2]
        · intro z hz
          rw [hfold]
          rcases List.mem_cons.mp hz with rfl | hz'
          · exact hxM
          · rcases List.mem_cons.mp hz' with rfl | hz''
            · omega
            · exact hbound z (List.mem_cons_of_mem _ hz'')
        · intro z hz
          rw [hfold]
          rcases List.mem_cons.mp hz with rfl | hz'
          · exact hxpre
          · rcases List.mem_cons.mp hz' with rfl | hz''
            · omega
            · exact hstrict z (h1 ▸ List.mem_cons_of_mem _ hz'')

theorem pyMinBy_first {α : Type} (f : α → Nat) :
    ∀ (l : List α) (x : α), ∃ pre suf, x :: l = pre ++ (pyMinBy f x l) :: suf ∧
      (∀ y ∈ x :: l, f (pyMinBy f x l) ≤ f y) ∧
      (∀ y ∈ pre, f (pyMinBy f x l) < f y)
  | [], x => ⟨[], [], rfl,
      by intro y hy; rw [List.mem_singleton] at hy; subst hy; exact le_refl _,
      by simp⟩
  | y :: t, x => by
    have hfold : pyMinBy f x (y :: t) = pyMinBy f (if f y < f x then y else x) t := rfl
    by_cases hc : f y < f x
    · rw [if_pos hc] at hfold
      obtain ⟨pre, suf, hsp, hbound, hstrict⟩ := pyMinBy_first f t y
      have hyM : f (pyMinBy f y t) ≤ f y := hbound y (List.mem_cons_self _ _)
      refine ⟨x :: pre, suf, ?_, ?_, ?_⟩
      · rw [hfold, List.cons_append, ← hsp]
      · intro z hz
        rw [hfold]
        rcases List.mem_cons.mp hz with rfl | hz'
        · omega
        · exact hbound z hz'
      · intro z hz
        rw [hfold]
        rcases List.mem_cons.mp hz with rfl | hz'
        · omega
        · exact hstrict z hz'
    · rw [if_neg hc] at hfold
      have hyx : f x ≤ f y := by omega
      obtain ⟨pre, suf, hsp, hbound, hstrict⟩ := pyMinBy_first f t x
      have hxM : f (pyMinBy f x t) ≤ f x := hbound x (List.mem_cons_self _ _)
      cases pre with
      | nil =>
        rw [List.nil_append] at hsp
        have h1 : x = pyMinBy f x t := by injection hsp
        refine ⟨[], y :: t, ?_, ?_, by simp⟩
        · rw [hfold, List.nil_append, ← h1]
        · intro z hz
          rw [hfold]
          rcases List.mem_cons.mp hz with rfl | hz'
          · exact hxM
          · rcases List.mem_cons.mp hz' with rfl | hz''
            · omega
            · exact hbound z (List.mem_cons_of_mem _ hz'')
      | cons p pre' =>
        rw [List.cons_append] at hsp
        have h1 : x = p := by injection hsp
        have h2 : t = pre' ++ pyMinBy f x t :: suf := by injection hsp
        have hxpre : f (pyMinBy f x t) < f x := by
          have hp := hstrict p (List.mem_cons_self _ _)
          rw [← h1] at hp
          exact hp
        refine ⟨x :: y :: pre', suf, ?_, ?_, ?_⟩
        · rw [hfold, List.cons_append, List.cons_append, ← h2]
        · intro z hz
          rw [hfold]
          rcases List.mem_cons.mp hz with rfl | hz'
          · exact hxM
          · rcases List.mem_cons.mp hz' with rfl | hz''
            · omega
            · exact hbound z (List.mem_cons_of_mem _ hz'')
        · intro z hz
          rw [hfold]
          rcases List.mem_cons.mp hz with rfl | hz'
          · exact hxpre
          · rcases List.mem_cons.mp hz' with rfl | hz''
            · omega
            · exact hstrict z (h1 ▸ List.mem_cons_of_mem _ hz'')

theorem pyDedup_length_toFinset (l : List String) :
    (pyDedup l).length = l.toFinset.card := by
  have h1 : (pyDedup l).toFinset = l.toFinset := by
    ext x
    simp only [List.mem_toFinset]
    exact mem_pyDedup_iff
  rw [← h1, List.toFinset_card_of_nodup (pyDedup_nodup l)]

/-- C7: `stats()` on an empty schema is the zeroed summary; otherwise
`total_groups` is the number of groups, `total_calendars` the number of
distinct calendar ids across all groups, the average is the exact mean
of per-group counts, and `largest_group` / `smallest_group` are the
first groups of the case-insensitively name-sorted list attaining the
maximal / minimal calendar count (every other group's count is bounded
by theirs, strictly so for the groups sorted before them). -/
theorem get_group_stats_spec (s : GroupsSchema) :
    (s.groups = [] → get_group_stats s = ⟨0, 0, 0, none, none⟩) ∧
    (s.groups ≠ [] →
      (get_group_stats s).total_groups = s.groups.length ∧
      (get_group_stats s).total_calendars
        = ((list_groups s).flatMap (·.calendar_ids)).toFinset.card ∧
      (get_group_stats s).average_calendars_per_group
        = (((list_groups s).map calCount).sum : ℚ) / (s.groups.length : ℚ) ∧
      (∃ pre gl suf, list_groups s = pre ++ gl :: suf ∧
        (get_group_stats s).largest_group = some (gl.name, calCount gl) ∧
        (∀ h ∈ list_groups s, calCount h ≤ calCount gl) ∧
        (∀ h ∈ pre, calCount h < calCount gl)) ∧
      (∃ pre gs suf, list_groups s = pre ++ gs :: suf ∧
        (get_group_stats s).smallest_group = some (gs.name, calCount gs) ∧
        (∀ h ∈ list_groups s, calCount gs ≤ calCount h) ∧
        (∀ h ∈ pre, calCount gs < calCount h))) := by
  have hperm : (list_groups s).Perm (s.groups.map (·.2)) :=
    List.perm_insertionSort _ _
  have hlen : (list_groups s).length = s.groups.length := by
    rw [hperm.length_eq, List.length_map]
  cases hl : list_groups s with
  | nil =>
    constructor
    · intro _
      simp [get_group_stats, hl]
    · intro hne
      exfalso
      apply hne
      rw [hl] at hlen
      exact List.length_eq_zero.mp hlen.symm
  | cons g gs =>
    constructor
    · intro h0
      exfalso
      have : list_groups s = [] := by
        unfold list_groups
        rw [h0]
        rfl
      rw [hl] at this
      cases this
    · intro _
      rw [hl] at hlen
      refine ⟨?_, ?_, ?_, ?_, ?_⟩
      · simp only [get_group_stats, hl]
        exact hlen
      · simp only [get_group_stats, hl]
        exact pyDedup_length_toFinset _
      · simp only [get_group_stats, hl]
        rw [List.length_map, hlen]
      · obtain ⟨pre, suf, hsp, hbound, hstrict⟩ := pyMaxBy_first calCount gs g
        refine ⟨pre, pyMaxBy calCount g gs, suf, hsp, ?_, hbound, hstrict⟩
        simp [get_group_stats, hl]
      · obtain ⟨pre, suf, hsp, hbound, hstrict⟩ := pyMinBy_first calCount gs g
        refine ⟨pre, pyMinBy calCount g gs, suf, hsp, ?_, hbound, hstrict⟩
        simp [get_group_stats, hl]

/-- Witness for C7 at a concrete two-group schema (names sort
case-insensitively as `["a", "B"]`; `"B"` has two ids, `"a"` has one,
and one id is shared). -/
theorem get_group_stats_spec_witness :
    (get_group_stats ⟨"1.0", [("B", ⟨"B", ["x", "y"], "", 0, 0⟩),
        ("a", ⟨"a", ["y"], "", 0, 0⟩)]⟩).total_groups
      = [("B", (⟨"B", ["x", "y"], "", 0, 0⟩ : CalendarGroup)),
          ("a", ⟨"a", ["y"], "", 0, 0⟩)].length ∧
    (get_group_stats ⟨"1.0", [("B", ⟨"B", ["x", "y"], "", 0, 0⟩),
        ("a", ⟨"a", ["y"], "", 0, 0⟩)]⟩).total_calendars
      = ((list_groups ⟨"1.0", [("B", ⟨"B", ["x", "y"], "", 0, 0⟩),
          ("a", ⟨"a", ["y"], "", 0, 0⟩)]⟩).flatMap (·.calendar_ids)).toFinset.card ∧
    (get_group_stats ⟨"1.0", [("B", ⟨"B", ["x", "y"], "", 0, 0⟩),
        ("a", ⟨"a", ["y"], "", 0, 0⟩)]⟩).average_calendars_per_group
      = (((list_groups ⟨"1.0", [("B", ⟨"B", ["x", "y"], "", 0, 0⟩),
          ("a", ⟨"a", ["y"], "", 0, 0⟩)]⟩).map calCount).sum : ℚ) / ((2 : Nat) : ℚ) ∧
    (∃ pre gl suf, list_groups ⟨"1.0", [("B", ⟨"B", ["x", "y"], "", 0, 0⟩),
          ("a", ⟨"a", ["y"], "", 0, 0⟩)]⟩ = pre ++ gl :: suf ∧
      (get_group_stats ⟨"1.0", [("B", ⟨"B", ["x", "y"], "", 0, 0⟩),
          ("a", ⟨"a", ["y"], "", 0, 0⟩)]⟩).largest_group = some (gl.name, calCount gl) ∧
      (∀ h ∈ list_groups ⟨"1.0", [("B", ⟨"B", ["x", "y"], "", 0, 0⟩),
          ("a", ⟨"a", ["y"], "", 0, 0⟩)]⟩, calCount h ≤ calCount gl) ∧
      (∀ h ∈ pre, calCount h < calCount gl)) ∧
    (∃ pre gs suf, list_groups ⟨"1.0", [("B", ⟨"B", ["x", "y"], "", 0, 0⟩),
          ("a", ⟨"a", ["y"], "", 0, 0⟩)]⟩ = pre ++ gs :: suf ∧
      (get_group_stats ⟨"1.0", [("B", ⟨"B", ["x", "y"], "", 0, 0⟩),
          ("a", ⟨"a", ["y"], "", 0, 0⟩)]⟩).smallest_group = some (gs.name, calCount gs) ∧
      (∀ h ∈ list_groups ⟨"1.0", [("B", ⟨"B", ["x", "y"], "", 0, 0⟩),
          ("a", ⟨"a", ["y"], "", 0, 0⟩)]⟩, calCount gs ≤ calCount h) ∧
      (∀ h ∈ pre, calCount gs < calCount h)) :=
  (get_group_stats_spec ⟨"1.0", [("B", ⟨"B", ["x", "y"], "", 0, 0⟩),
      ("a", ⟨"a", ["y"], "", 0, 0⟩)]⟩).2 (by decide)

/-!  Claim C1: schema invariants under manager operations.  One
characterisation lemma per operation describes the possible post-states. -/

theorem create_group_state (now : Nat) (name : String) (ids : List String)
    (desc : String) (s : GroupsSchema) :
    (create_group now name ids desc s).2.1 = s ∨
    ∃ g, mkCalendarGroup now name ids desc none none = .ok g ∧
      (create_group now name ids desc s).2.1
        = { s with groups := s.groups ++ [(g.name, g)] } := by
  unfold create_group
  by_cases hk : hasKey s.groups name = true
  · rw [if_pos hk]
    exact Or.inl rfl
  · rw [if_neg hk]
    cases hmk : mkCalendarGroup now name ids desc none none with
    | error e => exact Or.inl rfl
    | ok g =>
      dsimp only
      unfold add_group
      by_cases hk2 : hasKey s.groups g.name = true
      · rw [if_pos hk2]
        exact Or.inl rfl
      · rw [if_neg hk2]
        exact Or.inr ⟨g, rfl, rfl⟩

theorem update_group_state (now : Nat) (name : String) (u : GroupUpdates)
    (s : GroupsSchema) :
    (update_group now name u s).2.1 = s ∨
    ∃ g g', lookupGroup s name = some g ∧ g'.name = g.name ∧
      (g'.calendar_ids = g.calendar_ids ∨
        ∃ l, u.calendar_ids = some l ∧ g'.calendar_ids = l) ∧
      (update_group now name u s).2.1 = { s with groups := setKey s.groups name g' } := by
  unfold update_group
  cases hlk : lookupGroup s name with
  | none => exact Or.inl rfl
  | some g =>
    dsimp only
    cases hu : u.calendar_ids with
    | none =>
      cases hd : u.description with
      | none =>
        exact Or.inr ⟨g, ⟨g.name, g.calendar_ids, g.description, g.created, now⟩,
          rfl, rfl, Or.inl rfl, rfl⟩
      | some d =>
        exact Or.inr ⟨g, ⟨g.name, g.calendar_ids, pyStrip d, g.created, now⟩,
          rfl, rfl, Or.inl rfl, rfl⟩
    | some l =>
      cases hd : u.description with
      | none =>
        exact Or.inr ⟨g, ⟨g.name, l, g.description, g.created, now⟩,
          rfl, rfl, Or.inr ⟨l, rfl, rfl⟩, rfl⟩
      | some d =>
        exact Or.inr ⟨g, ⟨g.name, l, pyStrip d, g.created, now⟩,
          rfl, rfl, Or.inr ⟨l, rfl, rfl⟩, rfl⟩

theorem rename_group_state (now : Nat) (old_name new_name : String)
    (s : GroupsSchema) :
    (rename_group now old_name new_name s).2.1 = s ∨
    ∃ g, lookupGroup s old_name = some g ∧
      (rename_group now old_name new_name s).2.1
        = { s with groups := delKey (setKey s.groups new_name
            { g with name := new_name, modified := now }) old_name } := by
  unfold rename_group
  cases hlk : lookupGroup s old_name with
  | none => exact Or.inl rfl
  | some g =>
    dsimp only
    by_cases hk : hasKey s.groups new_name = true
    · rw [if_pos hk]
      exact Or.inl rfl
    · rw [if_neg hk]
      exact Or.inr ⟨g, rfl, rfl⟩

theorem delete_group_state (name : String) (s : GroupsSchema) :
    (delete_group name s).2.1 = s ∨
    (delete_group name s).2.1 = { s with groups := delKey s.groups name } := by
  unfold delete_group remove_group
  by_cases hk : hasKey s.groups name = true
  · rw [if_pos hk]
    exact Or.inr rfl
  · rw [if_neg hk]
    exact Or.inl rfl

theorem add_calendar_state (now : Nat) (gname cid : String) (s : GroupsSchema) :
    (add_calendar_to_group now gname cid s).2.1 = s ∨
    ∃ g g', lookupGroup s gname = some g ∧
      (g' = g ∨ (cid ∉ g.calendar_ids ∧
        g' = { g with calendar_ids := g.calendar_ids ++ [cid], modified := now })) ∧
      (add_calendar_to_group now gname cid s).2.1
        = { s with groups := setKey s.groups gname g' } := by
  unfold add_calendar_to_group
  cases hlk : lookupGroup s gname with
  | none => exact Or.inl rfl
  | some g =>
    dsimp only
    unfold groupAddCalendar
    by_cases hm : cid ∉ g.calendar_ids
    · rw [if_pos hm]
      exact Or.inr ⟨g, _, rfl, Or.inr ⟨hm, rfl⟩, rfl⟩
    · rw [if_neg hm]
      exact Or.inr ⟨g, _, rfl, Or.inl rfl, rfl⟩

theorem remove_calendar_state (now : Nat) (gname cid : String) (s : GroupsSchema) :
    (remove_calendar_from_group now gname cid s).2.1 = s ∨
    ∃ g g', lookupGroup s gname = some g ∧
      (g' = g ∨
        g' = { g with calendar_ids := g.calendar_ids.erase cid, modified := now }) ∧
      (remove_calendar_from_group now gname cid s).2.1
        = { s with groups := setKey s.groups gname g' } := by
  unfold remove_calendar_from_group
  cases hlk : lookupGroup s gname with
  | none => exact Or.inl rfl
  | some g =>
    dsimp only
    unfold groupRemoveCalendar
    by_cases hm : cid ∈ g.calendar_ids
    · rw [if_pos hm]
      exact Or.inr ⟨g, _, rfl, Or.inr rfl, rfl⟩
    · rw [if_neg hm]
      exact Or.inr ⟨g, _, rfl, Or.inl rfl, rfl⟩

theorem groupInv_of_lookup {s : GroupsSchema} {k : String} {g : CalendarGroup}
    (hinv : SchemaInv s) (h : lookupGroup s k = some g) : GroupInv g :=
  hinv (k, g) (lookup_pair_mem h)

theorem stepOp_preserves (now : Nat) (op : Op) (s : GroupsSchema)
    (hop : OpOK op) (hinv : SchemaInv s) : SchemaInv (stepOp now op s) := by
  cases op with
  | create name ids desc =>
    show SchemaInv (create_group now name ids desc s).2.1
    rcases create_group_state now name ids desc s with h | ⟨g, hmk, h⟩
    · rw [h]
      exact hinv
    · rw [h]
      intro p hp
      rcases List.mem_append.mp hp with hp' | hp'
      · exact hinv p hp'
      · rw [List.mem_singleton] at hp'
        subst hp'
        exact mkCalendarGroup_inv hmk
  | update name u =>
    show SchemaInv (update_group now name u s).2.1
    rcases update_group_state now name u s with h | ⟨g, g', hlk, hname, hids, h⟩
    · rw [h]
      exact hinv
    · rw [h]
      intro p hp
      rcases mem_setKey hp with hp' | hp'
      · subst hp'
        have hg := groupInv_of_lookup hinv hlk
        refine ⟨?_, ?_⟩
        · rcases hids with hid | ⟨l, hl, hid⟩
          · rw [hid]
            exact hg.1
          · rw [hid]
            exact hop l hl
        · rw [hname]
          exact hg.2
      · exact hinv p hp'
  | rename old_name new_name =>
    show SchemaInv (rename_group now old_name new_name s).2.1
    rcases rename_group_state now old_name new_name s with h | ⟨g, hlk, h⟩
    · rw [h]
      exact hinv
    · rw [h]
      intro p hp
      rcases mem_setKey (mem_delKey hp) with hp' | hp'
      · subst hp'
        exact ⟨(groupInv_of_lookup hinv hlk).1, hop⟩
      · exact hinv p hp'
  | delete name =>
    show SchemaInv (delete_group name s).2.1
    rcases delete_group_state name s with h | h
    · rw [h]
      exact hinv
    · rw [h]
      intro p hp
      exact hinv p (mem_delKey hp)
  | addCal gname cid =>
    show SchemaInv (add_calendar_to_group now gname cid s).2.1
    rcases add_calendar_state now gname cid s with h | ⟨g, g', hlk, hg', h⟩
    · rw [h]
      exact hinv
    · rw [h]
      intro p hp
      rcases mem_setKey hp with hp' | hp'
      · subst hp'
        have hg := groupInv_of_lookup hinv hlk
        rcases hg' with rfl | ⟨hm, rfl⟩
        · exact hg
        · refine ⟨?_, hg.2⟩
          rw [List.nodup_append]
          exact ⟨hg.1, List.nodup_singleton _,
            fun a ha ha' => hm ((List.mem_singleton.mp ha') ▸ ha)⟩
      · exact hinv p hp'
  | removeCal gname cid =>
    show SchemaInv (remove_calendar_from_group now gname cid s).2.1
    rcases remove_calendar_state now gname cid s with h | ⟨g, g', hlk, hg', h⟩
    · rw [h]
      exact hinv
    · rw [h]
      intro p hp
      rcases mem_setKey hp with hp' | hp'
      · subst hp'
        have hg := groupInv_of_lookup hinv hlk
        rcases hg' with rfl | rfl
        · exact hg
        · exact ⟨hg.1.erase cid, hg.2⟩
      · exact hinv p hp'

/-- C1 counterexample: starting from an invariant-satisfying schema,
`update` with a duplicate-containing list stores the duplicates
verbatim, and `rename` to a forbidden-character name stores that name
verbatim — pydantic field validators do not run on assignment, so both
operations leave an invariant-violating group in the schema. -/
theorem update_and_rename_break_invariants :
    SchemaInv ⟨"1.0", [("a", ⟨"a", [], "", 0, 0⟩)]⟩ ∧
    ¬ SchemaInv (runOps [(1, .update "a" ⟨some ["x", "x"], none⟩)]
        ⟨"1.0", [("a", ⟨"a", [], "", 0, 0⟩)]⟩) ∧
    ¬ SchemaInv (runOps [(1, .rename "a" "b/c")]
        ⟨"1.0", [("a", ⟨"a", [], "", 0, 0⟩)]⟩) := by
  refine ⟨by decide, by decide, by decide⟩

/-- C1 (amended): starting from an invariant-satisfying schema, every
sequence of manager operations in which each `update` supplies a
duplicate-free `calendar_ids` list and each `rename` supplies an
invariant-satisfying name leaves only invariant-satisfying groups in
the schema (duplicate-free `calendar_ids`; name non-empty after
trimming and free of the forbidden characters `/ \ : * ? " < > |`). -/
theorem runOps_preserves_invariants :
    ∀ (ops : List (Nat × Op)) (s : GroupsSchema), SchemaInv s →
      (∀ p ∈ ops, OpOK p.2) → SchemaInv (runOps ops s)
  | [], _, hinv, _ => hinv
  | (now, op) :: rest, s, hinv, hops =>
    runOps_preserves_invariants rest (stepOp now op s)
      (stepOp_preserves now op s (hops (now, op) (List.mem_cons_self _ _)) hinv)
      (fun p hp => hops p (List.mem_cons_of_mem _ hp))

/-- Witness for C1 (amended): a six-operation run exercising every
operation, starting from a one-group schema. -/
theorem runOps_preserves_invariants_witness :
    SchemaInv (runOps [(1, .create "b" ["x"] ""), (2, .addCal "b" "y"),
        (3, .rename "b" "c"), (4, .update "c" ⟨some ["z"], some " d "⟩),
        (5, .removeCal "c" "z"), (6, .delete "a")]
      ⟨"1.0", [("a", ⟨"a", [], "", 0, 0⟩)]⟩) :=
  runOps_preserves_invariants _ ⟨"1.0", [("a", ⟨"a", [], "", 0, 0⟩)]⟩
    (by decide) (by decide)

end MCPIcal
